import Mathlib

/-!
Verification of the search-and-render core of `dsearch`
(github.com/icampana/dsearch).

The search engine is embedded from `internal/search` (the DevDocs-index based
revision, whose `Search` returns `(results, warning, error)`); the renderer is
embedded from `internal/render`.  Go `int` is modelled as `Int`, the Go
`float64` score as `ℚ` (every score that occurs is an integer divided by 100,
a range on which `float64` agrees with exact arithmetic for ordering), Go
strings as `String`, Go slices as `List`, and a `*devdocs.Index` pointer as an
allocation id paired with the pointed-to (immutable) index value.  Fallible Go
functions return an explicit outcome type; a Go runtime panic is the
`panicked` outcome.
-/

namespace DSearch

/-- `devdocs.Entry` (internal/devdocs): one searchable unit of an index. -/
structure Entry where
  name : String
  path : String
  type : String
  deriving DecidableEq, Repr

/-- `devdocs.Type` (internal/devdocs): a category-summary record.  (Named
`DocType` here because `Type` is reserved in Lean.) -/
structure DocType where
  name : String
  count : Int
  slug : String
  deriving DecidableEq, Repr

/-- `devdocs.Index` (internal/devdocs): the searchable contents of one
installed document. -/
structure Index where
  entries : List Entry
  types : List DocType
  deriving DecidableEq, Repr

/-- A `*devdocs.Index` value: Go pointer identity is modelled as an
allocation id paired with the pointed-to index. -/
abbrev IndexPtr := Nat × Index

/-- `search.Engine` (internal/search): the Go struct holds `indices`,
`indicesBySlug` (a map, modelled as an association list with distinct keys)
and `limit`.  The derived `slugsByIndex` reverse map is recomputed on demand
by `slugOfIndex` below. -/
structure Engine where
  indices : List IndexPtr
  indicesBySlug : List (String × IndexPtr)
  limit : Int

/-- `search.New` (internal/search): constructs the engine.  (The Go code also
precomputes the reverse map `slugsByIndex`; the model recomputes it on use,
which is observationally identical because the engine is immutable after
construction.) -/
def New (indices : List IndexPtr) (indicesBySlug : List (String × IndexPtr))
    (limit : Int) : Engine :=
  { indices := indices, indicesBySlug := indicesBySlug, limit := limit }

/-- `search.Result` (internal/search): a ranked hit; embeds the entry, the
source slug and the normalized score. -/
structure Result where
  entry : Entry
  slug : String
  score : ℚ
  deriving DecidableEq, Repr

/-- Go field promotion: `Result` embeds `devdocs.Entry`, so `r.Name` in Go
reads the entry's name. -/
def Result.name (r : Result) : String := r.entry.name

/-- Go field promotion for the embedded entry's path. -/
def Result.path (r : Result) : String := r.entry.path

/-- A `fuzzy.Match` as consumed by the engine: the index of the matched
candidate and its integer score (only these two fields are read). -/
structure FuzzyMatch where
  index : Nat
  score : Int
  deriving DecidableEq, Repr

/-- The two error conditions `Engine.Search` can return
(`fmt.Errorf("no matching docs found")` and
`fmt.Errorf("no results found for %q", query)`). -/
inductive SearchErr where
  | noMatchingDocs : SearchErr
  | noResultsFound : String → SearchErr
  deriving DecidableEq, Repr

/-- Go quoting `%q` applied to a query (exact for queries without escape
characters, which is the only way it is exercised here). -/
def goQuote (s : String) : String := "\"" ++ s ++ "\""

/-- The user-visible message text of each search error. -/
def errMessage : SearchErr → String
  | .noMatchingDocs => "no matching docs found"
  | .noResultsFound q => "no results found for " ++ goQuote q

/-- The advisory warning built by `fmt.Sprintf("Searching across %d docs. Use
-d <doc> for faster results.", n)`. -/
def warnMsg (n : Nat) : String :=
  "Searching across " ++ toString n ++ " docs. Use -d <doc> for faster results."

/-- Outcome of one `Engine.Search` call: a successful result list with its
warning string, an error, or a Go runtime panic. -/
inductive SearchOutcome where
  | ok : List Result → String → SearchOutcome
  | err : SearchErr → SearchOutcome
  | panicked : SearchOutcome
  deriving DecidableEq, Repr

/-- The reverse lookup `e.slugsByIndex[idx]`: the slug under which an index
pointer is registered, `""` (Go zero value) when absent.  The Go reverse map
is built once per engine from `indicesBySlug`, whose keys are distinct, so the
choice of match order is immaterial. -/
def slugOfIndex (m : List (String × IndexPtr)) (ip : IndexPtr) : String :=
  match m.find? fun p => p.2 == ip with
  | some p => p.1
  | none => ""

/-- The result-building loop of `Engine.Search`: each fuzzy match is turned
into a `Result` holding `allEntries[match.Index]` and the score
`float64(match.Score) / 100.0`, modelled as the exact rational
`match.Score / 100` (float64 is exact on this range up to ordering and
equality).  An out-of-range match index would panic in Go (`none` here); the
fuzzy library never produces one. -/
def buildResults (allEntries : List (Entry × String)) :
    List FuzzyMatch → Option (List Result)
  | [] => some []
  | m :: ms =>
    match allEntries[m.index]?, buildResults allEntries ms with
    | some es, some rest =>
      some ({ entry := es.1, slug := es.2, score := Rat.divInt m.score 100 } :: rest)
    | _, _ => none

/-- The sort order established by the `sort.Slice` call in `Engine.Search`:
`a` may precede `b` iff the comparator does not strictly prefer `b`, i.e.
score strictly descending, ties broken by entry name ascending. -/
def resultLE (a b : Result) : Prop :=
  b.score < a.score ∨ (a.score = b.score ∧ a.entry.name ≤ b.entry.name)

instance : DecidableRel resultLE := fun a b => by
  unfold resultLE
  infer_instance

instance : IsTrans Result resultLE := by
  constructor
  intro a b c hab hbc
  rcases hab with h1 | ⟨h1, h1n⟩ <;> rcases hbc with h2 | ⟨h2, h2n⟩
  · exact Or.inl (lt_trans h2 h1)
  · exact Or.inl (h2 ▸ h1)
  · exact Or.inl (lt_of_lt_of_le h2 (le_of_eq h1.symm))
  · exact Or.inr ⟨h1.trans h2, le_trans h1n h2n⟩

instance : IsTotal Result resultLE := by
  constructor
  intro a b
  rcases lt_trichotomy b.score a.score with h | h | h
  · exact Or.inl (Or.inl h)
  · rcases le_total a.entry.name b.entry.name with hn | hn
    · exact Or.inl (Or.inr ⟨h.symm, hn⟩)
    · exact Or.inr (Or.inr ⟨h, hn⟩)
  · exact Or.inr (Or.inl h)

/-- The body of `Engine.Search` after the working set of indices and the
warning have been determined: flatten the entries (tagged with their source
slug), fail with `noResultsFound` on an empty pool, fuzzy-match, build and
sort results, and truncate to `limit`.  `sort.Slice` (an unspecified,
unstable sort) is modelled by a concrete sort with `resultLE`; Go guarantees
exactly the sortedness postcondition used in the theorems below.  Slicing
`results[:e.limit]` with a negative limit panics in Go. -/
def Engine.searchRank (find : String → List String → List FuzzyMatch)
    (e : Engine) (query : String) (indicesToSearch : List IndexPtr)
    (warning : String) : SearchOutcome :=
  let allEntries := indicesToSearch.flatMap fun ip =>
    ip.2.entries.map fun en => (en, slugOfIndex e.indicesBySlug ip)
  if allEntries = [] then .err (.noResultsFound query)
  else
    let names := allEntries.map fun p => p.1.name
    match buildResults allEntries (find query names) with
    | none => .panicked
    | some results =>
      let sorted := List.insertionSort resultLE results
      if e.limit < (sorted.length : Int) then
        if e.limit < 0 then .panicked
        else .ok (sorted.take e.limit.toNat) warning
      else .ok sorted warning

/-- `Engine.Search` (internal/search), parameterized by the fuzzy matching
function `find` (the call `fuzzy.Find(query, names)`): filter the indices by
the requested slugs, fail with `noMatchingDocs` when the working set is
empty, compute the >10-docs advisory warning, then rank. -/
def Engine.SearchWith (find : String → List String → List FuzzyMatch)
    (e : Engine) (query : String) (docSlugs : List String) : SearchOutcome :=
  let indicesToSearch :=
    if docSlugs = [] then e.indices
    else docSlugs.filterMap fun slug => e.indicesBySlug.lookup slug
  if indicesToSearch = [] then .err .noMatchingDocs
  else
    let warning :=
      if 10 < indicesToSearch.length ∧ docSlugs = [] then
        warnMsg indicesToSearch.length
      else ""
    e.searchRank find query indicesToSearch warning

/-- Case-insensitive non-contiguous subsequence test (on lowered character
lists): the core of the fuzzy matcher. -/
def isSubseqOf : List Char → List Char → Bool
  | [], _ => true
  | _ :: _, [] => false
  | a :: as, b :: bs => if a == b then isSubseqOf as bs else isSubseqOf (a :: as) bs

/-- `strings.ToLower` restricted to ASCII (the only range the modelled inputs
exercise). -/
def goToLower (s : String) : String := ⟨s.data.map Char.toLower⟩

/-- Modelled from the spec: the score of one fuzzy match.  The third-party
matcher (github.com/sahilm/fuzzy) is not part of this repository; per the
spec (§4.1 step 5) it must score exact/contiguous matches higher than
scattered ones.  Only the relative order of scores is observable in the
claims. -/
def matchScore (query name : String) : Int :=
  if (goToLower query).data <:+: (goToLower name).data then 2 * (query.length : Int)
  else (query.length : Int)

/-- Modelled from the spec: `fuzzy.Find(query, names)` of the third-party
matcher (github.com/sahilm/fuzzy), which is not part of this repository.  Per
the spec (§4.1 step 5 and the Glossary) it performs case-insensitive
non-contiguous subsequence matching of `query` against each candidate name,
returning one match (with the candidate's index and a numeric score) per
candidate that contains the query as a subsequence; candidates with no match
are excluded. -/
def fuzzyFind (query : String) (names : List String) : List FuzzyMatch :=
  names.enum.filterMap fun p =>
    if isSubseqOf (goToLower query).data (goToLower p.2).data then
      some ⟨p.1, matchScore query p.2⟩
    else none

/-- `Engine.Search` with the (spec-modelled) fuzzy matcher plugged in. -/
def Engine.Search (e : Engine) (query : String) (docSlugs : List String) :
    SearchOutcome :=
  e.SearchWith fuzzyFind query docSlugs

/-! Concrete engines used by the witnesses, taken from the repository's own
test data (`internal/search/engine_test.go`) and the spec's scenarios. -/

/-- The first test index of `engine_test.go`. -/
def testIndex1 : Index :=
  ⟨[⟨"useState", "react/hooks", "Hook"⟩, ⟨"useEffect", "react/hooks", "Hook"⟩], []⟩

/-- The second test index of `engine_test.go`. -/
def testIndex2 : Index := ⟨[⟨"User", "models/user", "Model"⟩], []⟩

/-- The engine built in `TestEngine_Search`: two indices under slugs `react`
and `django`, limit 10. -/
def engTest : Engine :=
  New [(0, testIndex1), (1, testIndex2)]
    [("react", (0, testIndex1)), ("django", (1, testIndex2))] 10

/-- The single-entry index of the spec's round-trip scenario. -/
def reactIndex : Index := ⟨[⟨"useState", "a/b", "Hook"⟩], []⟩

/-- Engine of the spec's round-trip scenario: one index under slug `react`. -/
def engReact : Engine := New [(0, reactIndex)] [("react", (0, reactIndex))] 10

/-- Index with the single entry `foo` (spec scenario sources). -/
def idxA : Index := ⟨[⟨"foo", "pa", "T"⟩], []⟩

/-- Index with the single entry `bar` (spec scenario sources). -/
def idxB : Index := ⟨[⟨"bar", "pb", "T"⟩], []⟩

/-- Engine of the spec's two-source scenario (`docA` holds `foo`, `docB`
holds `bar`). -/
def engAB : Engine :=
  New [(0, idxA), (1, idxB)] [("docA", (0, idxA)), ("docB", (1, idxB))] 10

/-- An index with zero entries (legal per the spec). -/
def emptyIndex : Index := ⟨[], []⟩

/-- An engine with 11 loaded indices (only the first holds an entry), for the
warning-threshold scenario. -/
def eng11 : Engine :=
  New ((0, idxA) :: (List.range 10).map fun i => (i + 1, emptyIndex))
    (("doc0", (0, idxA)) ::
      (List.range 10).map fun i => ("doc" ++ toString (i + 1), (i + 1, emptyIndex)))
    10

/-- An engine constructed with a negative limit. -/
def engNeg : Engine := New [(0, idxB)] [("docB", (0, idxB))] (-1)

/-! Renderer model (internal/render).  HTML documents are modelled as the
parse trees produced by golang.org/x/net/html (node kinds text, comment,
element, document).  `html.Parse` itself is a third-party HTML5 parser with
error recovery that is total on in-memory input; it enters the theorems only
as an arbitrary total function from strings to trees. -/

/-- A golang.org/x/net/html `*html.Node`: `Data` holds the text, comment
body or tag name, `Attr` the attribute key/value pairs. -/
inductive Html where
  | text (data : String)
  | comment (data : String)
  | elem (tag : String) (attrs : List (String × String)) (children : List Html)
  | doc (children : List Html)
  deriving Repr

/-- `unicode.IsSpace` as consulted by `strings.TrimSpace`, restricted to the
Latin-1 range (whitespace characters above U+00FF never arise here). -/
def goIsSpace (c : Char) : Bool :=
  c == ' ' || c == '\t' || c == '\n' || c == '\x0B' || c == '\x0C' || c == '\r' ||
    c == '\u0085' || c == '\u00A0'

/-- `strings.TrimSpace` on a character list: drop whitespace from both
ends. -/
def goTrimSpace (l : List Char) : List Char :=
  ((l.dropWhile goIsSpace).reverse.dropWhile goIsSpace).reverse

/-- `strings.TrimSpace` on strings. -/
def goTrimSpaceStr (s : String) : String := ⟨goTrimSpace s.data⟩

/-- `strings.ReplaceAll s old new` (leftmost-first, non-overlapping) for a
three-character pattern `[o1, o2, o3]` — the renderer's only use is the
pattern `"\n\n\n"`. -/
def goReplaceAll3 (o1 o2 o3 : Char) (new : List Char) : List Char → List Char
  | a :: b :: c :: t =>
    if a == o1 && b == o2 && c == o3 then new ++ goReplaceAll3 o1 o2 o3 new t
    else a :: goReplaceAll3 o1 o2 o3 new (b :: c :: t)
  | l => l

/-- The final post-processing of the readability-based `renderMarkdown`
(render.go): `strings.TrimSpace` followed by
`strings.ReplaceAll(md, "\n\n\n", "\n\n")`. -/
def renderMarkdownPost (md : String) : String :=
  ⟨goReplaceAll3 '\n' '\n' '\n' ['\n', '\n'] (goTrimSpace md.data)⟩

/-- Whether a character list contains three consecutive newlines. -/
def hasRun3 : List Char → Bool
  | a :: b :: c :: t => (a == '\n' && b == '\n' && c == '\n') || hasRun3 (b :: c :: t)
  | _ => false

/-- Whether a character list contains four consecutive newlines. -/
def hasRun4 : List Char → Bool
  | a :: b :: c :: d :: t =>
    (a == '\n' && b == '\n' && c == '\n' && d == '\n') || hasRun4 (b :: c :: d :: t)
  | _ => false

/-- Whether a character list has neither leading nor trailing whitespace. -/
def noEdgeSpace (l : List Char) : Bool :=
  (match l.head? with
   | some c => !goIsSpace c
   | none => true) &&
  (match l.getLast? with
   | some c => !goIsSpace c
   | none => true)

/-- `strings.Contains`. -/
def goContains (s sub : String) : Bool := decide (sub.data <:+: s.data)

mutual

/-- `Renderer.extractText` (render.go): the plain-text tree walk.  Text nodes
are trimmed and, when non-empty, emitted with a trailing space; block
elements open with a newline, `pre`/`code` open and close with a fence, and
`a` elements with an `href` open a bracket that is closed unconditionally. -/
def extractText : Html → String
  | .text s =>
    let t := goTrimSpaceStr s
    if t = "" then "" else t ++ " "
  | .comment _ => ""
  | .elem tag attrs cs =>
    (match tag with
     | "p" | "br" | "div" | "h1" | "h2" | "h3" | "h4" | "h5" | "h6" | "li" => "\n"
     | "pre" | "code" => "\n```\n"
     | "a" => if attrs.any fun p => p.1 == "href" then "[" else ""
     | _ => "") ++
    extractTextList cs ++
    (match tag with
     | "a" => "]"
     | "pre" | "code" => "\n```\n"
     | _ => "")
  | .doc cs => extractTextList cs

def extractTextList : List Html → String
  | [] => ""
  | c :: cs => extractText c ++ extractTextList cs

end

mutual

/-- `Renderer.extractMarkdown` (render.go, tree-walk revision): the markdown
tree walk.  Note the asymmetries of the source: headings open only for
`h1`–`h4` but close for `h1`–`h6`, and the closing bracket of an `a` element
is written unconditionally while the opening one requires an `href`. -/
def extractMarkdown : Html → String
  | .text s => goTrimSpaceStr s
  | .comment _ => ""
  | .elem tag attrs cs =>
    (match tag with
     | "p" => "\n\n"
     | "br" => "\n"
     | "h1" => "\n# "
     | "h2" => "\n## "
     | "h3" => "\n### "
     | "h4" => "\n#### "
     | "code" => "`"
     | "pre" => "\n```\n"
     | "strong" | "b" => "**"
     | "em" | "i" => "*"
     | "a" => if attrs.any fun p => p.1 == "href" then "[" else ""
     | "ul" | "ol" => "\n"
     | "li" => "- "
     | _ => "") ++
    extractMarkdownList cs ++
    (match tag with
     | "a" =>
       "]" ++
         match attrs.find? fun p => p.1 == "href" with
         | some p => "(" ++ p.2 ++ ")"
         | none => ""
     | "strong" | "b" => "**"
     | "em" | "i" => "*"
     | "code" => "`"
     | "pre" => "\n```\n"
     | "h1" | "h2" | "h3" | "h4" | "h5" | "h6" => "\n"
     | _ => "")
  | .doc cs => extractMarkdownList cs

def extractMarkdownList : List Html → String
  | [] => ""
  | c :: cs => extractMarkdown c ++ extractMarkdownList cs

end

/-- The tag set removed outright by `cleanHTML` (render.go). -/
def removeTags : List String :=
  ["script", "style", "link", "meta", "noscript", "iframe", "head"]

/-- The id substrings `cleanHTML` treats as navigation chrome. -/
def navIDs : List String :=
  ["search", "nav", "menu", "sidebar", "top", "header", "footer", "breadcrumbs",
    "skip", "related", "social"]

/-- The href substrings `cleanHTML` treats as navigation links. -/
def navHrefs : List String :=
  ["/learn/index.html", "/community/index.html", "/blog", "facebook.com/react",
    "twitter.com", "github.com"]

/-- `shouldRemoveNode` of `cleanHTML` (render.go): remove elements by tag, or
by case-insensitive substring match on the `id`, `href` or `class`
attribute. -/
def shouldRemoveNode : Html → Bool
  | .elem tag attrs _ =>
    removeTags.contains tag ||
    attrs.any fun p =>
      (p.1 == "id" && navIDs.any fun pat => goContains (goToLower p.2) pat) ||
      (p.1 == "href" && navHrefs.any fun pat => goContains (goToLower p.2) pat) ||
      (p.1 == "class" &&
        (goContains (goToLower p.2) "skip" || goContains (goToLower p.2) "nav" ||
          goContains (goToLower p.2) "menu" || goContains (goToLower p.2) "sidebar"))
  | _ => false

/-- Escaping of one text character by the golang.org/x/net/html serializer. -/
def escapeHtmlChar (c : Char) : String :=
  if c == '&' then "&amp;"
  else if c == Char.ofNat 39 then "&#39;"
  else if c == '<' then "&lt;"
  else if c == '>' then "&gt;"
  else if c == '"' then "&#34;"
  else String.singleton c

/-- Text escaping of the golang.org/x/net/html serializer. -/
def escapeHtml (s : String) : String := String.join (s.data.map escapeHtmlChar)

/-- Attribute rendering of the golang.org/x/net/html serializer. -/
def renderAttrs (attrs : List (String × String)) : String :=
  String.join (attrs.map fun p => " " ++ p.1 ++ "=\"" ++ escapeHtml p.2 ++ "\"")

/-- The void elements of the golang.org/x/net/html serializer (rendered
self-closing, without children). -/
def voidElements : List String :=
  ["area", "base", "br", "col", "embed", "hr", "img", "input", "keygen", "link",
    "meta", "param", "source", "track", "wbr"]

/-- The raw-text elements of the golang.org/x/net/html serializer: their
child text is written verbatim, unescaped. -/
def rawTextTags : List String :=
  ["iframe", "noembed", "noframes", "noscript", "plaintext", "script", "style", "xmp"]

mutual

/-- Model of the third-party serializer `html.Render` (golang.org/x/net/html)
as invoked by `cleanHTML` on each kept node: it serializes the node's entire
subtree — elements as `<tag attrs>…</tag>` (void elements self-closing),
text escaped except inside raw-text elements such as `script` and `style`,
whose body is emitted verbatim. -/
def htmlRender : Html → String
  | .text s => escapeHtml s
  | .comment s => "<!--" ++ s ++ "-->"
  | .doc cs => htmlRenderList cs
  | .elem tag attrs cs =>
    if voidElements.contains tag then "<" ++ tag ++ renderAttrs attrs ++ "/>"
    else
      "<" ++ tag ++ renderAttrs attrs ++ ">" ++
        (if rawTextTags.contains tag then htmlRenderRawList cs else htmlRenderList cs) ++
        "</" ++ tag ++ ">"

def htmlRenderList : List Html → String
  | [] => ""
  | c :: cs => htmlRender c ++ htmlRenderList cs

def htmlRenderRawList : List Html → String
  | [] => ""
  | .text s :: cs => s ++ htmlRenderRawList cs
  | c :: cs => htmlRender c ++ htmlRenderRawList cs

end

mutual

/-- The `traverse` closure of `cleanHTML` (render.go): skip a node that
`shouldRemoveNode` flags; otherwise serialize the node with `html.Render`
(which emits its whole subtree) and then traverse — and serialize again —
each of its children. -/
def cleanTraverse : Html → String
  | .text s => if shouldRemoveNode (.text s) then "" else htmlRender (.text s)
  | .comment s => if shouldRemoveNode (.comment s) then "" else htmlRender (.comment s)
  | .doc cs =>
    if shouldRemoveNode (.doc cs) then ""
    else htmlRender (.doc cs) ++ cleanTraverseList cs
  | .elem tag attrs cs =>
    if shouldRemoveNode (.elem tag attrs cs) then ""
    else htmlRender (.elem tag attrs cs) ++ cleanTraverseList cs

def cleanTraverseList : List Html → String
  | [] => ""
  | c :: cs => cleanTraverse c ++ cleanTraverseList cs

end

/-- `cleanHTML` (render.go) on an already-parsed document: traverse every
child of the document root.  (The Go function parses its input first;
`html.Parse` always yields a document node, so the fallback case is
unreachable.) -/
def cleanHTML : Html → String
  | .doc cs => cleanTraverseList cs
  | n => cleanTraverse n

/-- `render.FormatText`. -/
def FormatText : String := "text"

/-- `render.FormatMD`. -/
def FormatMD : String := "md"

/-- Modelled from the spec: the third-party markdown converter
`htmltomarkdown.ConvertString` (github.com/JohannesKaufmann/html-to-markdown)
called by the readability-based `renderMarkdown` is not part of this
repository.  Per the spec (§4.2 step 2 and §7) conversion never fails on any
input; the conversion rules the spec lists are those of the repository's own
tree walk `extractMarkdown`, which therefore serves as the stand-in. -/
def convertString (parse : String → Html) (s : String) : Except String String :=
  .ok (extractMarkdown (parse s))

/-- `Renderer.renderMarkdown` (readability-based revision, render.go):
extract the main content — falling back to the raw input when extraction
fails — convert to markdown (propagating a conversion error), then trim and
collapse `"\n\n\n"` runs. -/
def renderMarkdown (extract : String → Except String String)
    (parse : String → Html) (input : String) : Except String String :=
  let cleanContent :=
    match extract input with
    | .ok c => c
    | .error _ => input
  match convertString parse cleanContent with
  | .error e => .error ("converting to markdown: " ++ e)
  | .ok md => .ok (renderMarkdownPost md)

/-- `Renderer.renderText` (readability-based revision, render.go): extract
the main content — falling back to the raw input when extraction fails —
parse (`html.Parse` is total, so its error branch is unreachable) and walk
the tree. -/
def renderText (extract : String → Except String String)
    (parse : String → Html) (input : String) : Except String String :=
  let cleanContent :=
    match extract input with
    | .ok c => c
    | .error _ => input
  .ok (extractText (parse cleanContent))

/-- `Renderer.Render` (render.go): dispatch on the configured format — `"md"`
renders markdown, `"text"` and any other value fall through to text (the Go
switch's default case). -/
def Render (format : String) (extract : String → Except String String)
    (parse : String → Html) (input : String) : Except String String :=
  if format = FormatMD then renderMarkdown extract parse input
  else renderText extract parse input

/-- The parse tree of the render test's style input
(`render_test.go`, "removes CSS from style tags", simplified to one rule):
`<html><head><style>body \x7b color: red; \x7d</style></head><body><h1>Title</h1></body></html>`. -/
def styleDoc : Html :=
  .doc [.elem "html" []
    [.elem "head" [] [.elem "style" [] [.text "body \x7b color: red; \x7d"]],
     .elem "body" [] [.elem "h1" [] [.text "Title"]]]]

/-- The parse tree of `<p>hi</p>` (after HTML5 normalization adds the
`html`/`head`/`body` scaffolding). -/
def pDoc : Html :=
  .doc [.elem "html" []
    [.elem "head" [] [],
     .elem "body" [] [.elem "p" [] [.text "hi"]]]]

/-! Helper lemmas about the engine. -/

theorem searchRank_ok (find : String → List String → List FuzzyMatch)
    (e : Engine) (q : String) (its : List IndexPtr) (warn : String)
    (res : List Result) (w : String)
    (h : e.searchRank find q its warn = .ok res w) :
    w = warn ∧ res.Pairwise resultLE ∧
      (res.length : Int) ≤ max e.limit 0 ∧ (e.limit = 0 → res = []) := by
  have hsorted : ∀ l : List Result, (List.insertionSort resultLE l).Pairwise resultLE :=
    fun l => List.sorted_insertionSort resultLE l
  simp only [Engine.searchRank] at h
  split at h
  · simp at h
  · split at h
    · simp at h
    · split at h
      · split at h
        · simp at h
        · rcases h with ⟨rfl, rfl⟩
          refine ⟨rfl, List.Pairwise.sublist (List.take_sublist _ _) (hsorted _), ?_, ?_⟩
          · rw [List.length_take]
            omega
          · intro h0
            rw [h0]
            simp
      · rcases h with ⟨rfl, rfl⟩
        rename_i hlen
        refine ⟨rfl, hsorted _, by omega, ?_⟩
        intro h0
        rw [h0] at hlen
        exact List.length_eq_zero.mp (by omega)

theorem SearchWith_ok_elim (find : String → List String → List FuzzyMatch)
    (e : Engine) (q : String) (slugs : List String)
    (res : List Result) (w : String)
    (h : e.SearchWith find q slugs = .ok res w) :
    (w = if 10 < (if slugs = [] then e.indices
            else slugs.filterMap fun s => e.indicesBySlug.lookup s).length ∧ slugs = []
          then warnMsg (if slugs = [] then e.indices
            else slugs.filterMap fun s => e.indicesBySlug.lookup s).length
          else "") ∧
    res.Pairwise resultLE ∧
    (res.length : Int) ≤ max e.limit 0 ∧ (e.limit = 0 → res = []) := by
  simp only [Engine.SearchWith] at h
  by_cases hs : slugs = []
  · rw [if_pos hs] at h ⊢
    split at h
    · simp at h
    · exact searchRank_ok _ _ _ _ _ _ _ h
  · rw [if_neg hs] at h ⊢
    split at h
    · simp at h
    · exact searchRank_ok _ _ _ _ _ _ _ h

theorem warnMsg_ne_empty (n : Nat) : warnMsg n ≠ "" := by
  intro h
  have hl := congrArg String.length h
  rw [warnMsg, String.length_append, String.length_append] at hl
  have h1 : ("Searching across " : String).length = 17 := rfl
  have h2 : (" docs. Use -d <doc> for faster results." : String).length = 39 := rfl
  have h3 : ("" : String).length = 0 := rfl
  omega

theorem errMessage_distinct (q : String) :
    errMessage .noMatchingDocs ≠ errMessage (.noResultsFound q) := by
  intro h
  have hl := congrArg String.length h
  simp only [errMessage, goQuote, String.length_append] at hl
  have h1 : ("no matching docs found" : String).length = 22 := rfl
  have h2 : ("no results found for " : String).length = 21 := rfl
  have h3 : ("\"" : String).length = 1 := rfl
  omega

theorem filterMap_lookup_none {e : Engine} :
    ∀ (l : List String), (∀ s ∈ l, e.indicesBySlug.lookup s = none) →
      l.filterMap (fun slug => e.indicesBySlug.lookup slug) = [] := by
  intro l hl
  induction l with
  | nil => rfl
  | cons a t ih =>
    rw [List.filterMap_cons, hl a (by simp)]
    exact ih fun s hs => hl s (by simp [hs])

theorem filterMap_lookup_filter {e : Engine} :
    ∀ (l : List String),
      (l.filter fun s => (e.indicesBySlug.lookup s).isSome).filterMap
          (fun slug => e.indicesBySlug.lookup slug) =
        l.filterMap fun slug => e.indicesBySlug.lookup slug := by
  intro l
  induction l with
  | nil => rfl
  | cons a t ih =>
    by_cases ha : (e.indicesBySlug.lookup a).isSome
    · rw [List.filter_cons_of_pos (by simpa using ha), List.filterMap_cons,
        List.filterMap_cons, ih]
    · rw [List.filter_cons_of_neg (by simpa using ha), List.filterMap_cons, ih,
        Option.not_isSome_iff_eq_none.mp ha]

/-! The search-engine claims. -/

/-- **C1.**  The claim states that a non-empty candidate pool with zero fuzzy
matches makes `Search` fail with `NoResults`.  The code checks the pool for
emptiness *before* fuzzy matching and returns a successful empty result list
when the matcher finds nothing: on the engine of the repository's own test
(`engine_test.go`), the queries of its "No results" and "Filter by wrong
slug" cases — both of which the test expects to error — return `ok [] ""`. -/
theorem claim_c1_code_bug :
    Engine.Search engTest "nonexistent" [] = .ok [] "" ∧
    Engine.Search engTest "useState" ["django"] = .ok [] "" :=
  ⟨by decide, by decide⟩

/-- **C2** (amended).  A successful `Search` never returns more than
`max limit 0` results, and with `limit = 0` a successful `Search` returns
exactly zero results.  (The original claim also asserted that every engine
with `limit ≤ 0` returns zero results without failing or aborting; a
negative limit in fact panics at the truncation step — see the
counterexample.) -/
theorem claim_c2_amended (find : String → List String → List FuzzyMatch)
    (e : Engine) (q : String) (slugs : List String)
    (res : List Result) (w : String)
    (h : e.SearchWith find q slugs = .ok res w) :
    (res.length : Int) ≤ max e.limit 0 ∧ (e.limit = 0 → res = []) :=
  (SearchWith_ok_elim find e q slugs res w h).2.2

/-- **C2** witness: the amended theorem applied to the test engine and a
query with an empty (successful) result list. -/
theorem claim_c2_witness :
    ((([] : List Result).length : Int) ≤ max engTest.limit 0) ∧
    (engTest.limit = 0 → ([] : List Result) = []) :=
  claim_c2_amended fuzzyFind engTest "nonexistent" [] [] "" (by decide)

/-- **C2** counterexample: an engine constructed with `limit = -1` panics
(`results[:e.limit]` with a negative bound) instead of returning zero
results without error. -/
theorem claim_c2_counterexample :
    engNeg.limit ≤ 0 ∧ Engine.Search engNeg "bar" [] = .panicked :=
  ⟨by decide, by decide⟩

/-- **C3.**  Every successful result sequence is sorted by score descending
(no result has a strictly lower score than a later one), with adjacent
equal-score results in ascending name order. -/
theorem claim_c3 (find : String → List String → List FuzzyMatch)
    (e : Engine) (q : String) (slugs : List String)
    (res : List Result) (w : String)
    (h : e.SearchWith find q slugs = .ok res w) :
    res.Pairwise (fun a b => ¬ a.score < b.score) ∧
    res.Chain' fun a b => a.score = b.score → a.entry.name ≤ b.entry.name := by
  have hp := (SearchWith_ok_elim find e q slugs res w h).2.1
  constructor
  · refine hp.imp fun hab => ?_
    rcases hab with h1 | ⟨h1, _⟩
    · exact fun hlt => lt_asymm h1 hlt
    · exact h1 ▸ lt_irrefl _
  · refine (hp.imp fun hab => ?_).chain'
    intro h1
    rcases hab with h2 | ⟨_, h2⟩
    · exact absurd h1 (ne_of_gt h2)
    · exact h2

/-- **C3** witness: the sortedness theorem applied to the round-trip
scenario's engine. -/
theorem claim_c3_witness :
    List.Pairwise (fun a b : Result => ¬ a.score < b.score)
      [⟨⟨"useState", "a/b", "Hook"⟩, "react", Rat.divInt 16 100⟩] ∧
    List.Chain' (fun a b : Result => a.score = b.score → a.entry.name ≤ b.entry.name)
      [⟨⟨"useState", "a/b", "Hook"⟩, "react", Rat.divInt 16 100⟩] :=
  claim_c3 fuzzyFind engReact "useState" []
    [⟨⟨"useState", "a/b", "Hook"⟩, "react", Rat.divInt 16 100⟩] "" (by decide)

/-- **C4.**  A non-empty source filter none of whose ids matches a loaded
index makes `Search` fail with `noMatchingDocs`, whose message text differs
from every `noResultsFound` message. -/
theorem claim_c4 (find : String → List String → List FuzzyMatch)
    (e : Engine) (q : String) (slugs : List String)
    (hne : slugs ≠ [])
    (hnone : ∀ s ∈ slugs, e.indicesBySlug.lookup s = none) :
    e.SearchWith find q slugs = .err .noMatchingDocs ∧
    ∀ q', errMessage .noMatchingDocs ≠ errMessage (.noResultsFound q') := by
  refine ⟨?_, errMessage_distinct⟩
  simp only [Engine.SearchWith]
  rw [if_neg hne, filterMap_lookup_none slugs hnone]
  simp

/-- **C4** witness: the spec's scenario — searching `["docC"]` when only
`docA` and `docB` are loaded. -/
theorem claim_c4_witness :
    Engine.SearchWith fuzzyFind engAB "xyz" ["docC"] = .err .noMatchingDocs ∧
    ∀ q', errMessage .noMatchingDocs ≠ errMessage (.noResultsFound q') :=
  claim_c4 fuzzyFind engAB "xyz" ["docC"] (by decide) (by decide)

/-- **C5.**  A successful unfiltered `Search` over more than 10 indices
carries a non-empty advisory warning; a successful `Search` with a non-empty
source filter always carries an empty warning. -/
theorem claim_c5 (find : String → List String → List FuzzyMatch)
    (e : Engine) (q : String) (slugs : List String)
    (res : List Result) (w : String)
    (h : e.SearchWith find q slugs = .ok res w) :
    (slugs = [] → 10 < e.indices.length → w ≠ "") ∧ (slugs ≠ [] → w = "") := by
  have hw := (SearchWith_ok_elim find e q slugs res w h).1
  constructor
  · intro hs h10
    subst hs
    rw [if_pos rfl] at hw
    rw [hw, if_pos ⟨h10, rfl⟩]
    exact warnMsg_ne_empty _
  · intro hs
    rw [hw, if_neg fun hc => hs hc.2]

/-- **C5** witness: the warning theorem applied to an 11-index engine. -/
theorem claim_c5_witness : warnMsg 11 ≠ "" :=
  (claim_c5 fuzzyFind eng11 "foo" []
    [⟨⟨"foo", "pa", "T"⟩, "doc0", Rat.divInt 6 100⟩] (warnMsg 11) (by decide)).1
    rfl (by decide)

/-- **C6.**  The spec's round-trip scenario: searching `"useState"` on the
engine holding one index (entry `useState`/`a/b`/`Hook` under source id
`react`) succeeds with exactly one result that preserves the entry's name and
path and carries provenance `react`. -/
theorem claim_c6 :
    ∃ r w, Engine.Search engReact "useState" [] = .ok [r] w ∧
      r.name = "useState" ∧ r.slug = "react" ∧ r.path = "a/b" :=
  ⟨⟨⟨"useState", "a/b", "Hook"⟩, "react", Rat.divInt 16 100⟩, "",
    by decide, rfl, rfl, rfl⟩

/-- **C10.**  When at least one filter id matches a loaded index, `Search`
behaves exactly as if called with only the matching ids, and a successful
call carries no warning. -/
theorem claim_c10 (find : String → List String → List FuzzyMatch)
    (e : Engine) (q : String) (slugs : List String)
    (hsome : ∃ s ∈ slugs, (e.indicesBySlug.lookup s).isSome) :
    e.SearchWith find q slugs =
      e.SearchWith find q (slugs.filter fun s => (e.indicesBySlug.lookup s).isSome) ∧
    ∀ res w, e.SearchWith find q slugs = .ok res w → w = "" := by
  obtain ⟨s0, hmem, hs0⟩ := hsome
  have hne : slugs ≠ [] := by
    rintro rfl
    simp at hmem
  have hfne : (slugs.filter fun s => (e.indicesBySlug.lookup s).isSome) ≠ [] := by
    intro hf
    have hm : s0 ∈ slugs.filter fun s => (e.indicesBySlug.lookup s).isSome :=
      List.mem_filter.mpr ⟨hmem, hs0⟩
    rw [hf] at hm
    simp at hm
  have hits_ne : (slugs.filterMap fun slug => e.indicesBySlug.lookup slug) ≠ [] := by
    obtain ⟨v, hv⟩ := Option.isSome_iff_exists.mp hs0
    intro h0
    have hv2 : v ∈ slugs.filterMap fun slug => e.indicesBySlug.lookup slug :=
      List.mem_filterMap.mpr ⟨s0, hmem, hv⟩
    rw [h0] at hv2
    simp at hv2
  constructor
  · simp only [Engine.SearchWith]
    rw [if_neg hne, if_neg hfne, filterMap_lookup_filter, if_neg hits_ne,
      if_neg fun hc => hne hc.2]
    simp [hfne, hits_ne]
  · intro res w h
    have hw := (SearchWith_ok_elim find e q slugs res w h).1
    rw [hw, if_neg fun hc => hne hc.2]

/-- **C10** witness: filtering by `["docA", "docC"]` (one matching, one
unknown id) on the two-source engine. -/
theorem claim_c10_witness :
    Engine.SearchWith fuzzyFind engAB "foo" ["docA", "docC"] =
      Engine.SearchWith fuzzyFind engAB "foo"
        (["docA", "docC"].filter fun s => (engAB.indicesBySlug.lookup s).isSome) ∧
    ∀ res w, Engine.SearchWith fuzzyFind engAB "foo" ["docA", "docC"] = .ok res w →
      w = "" :=
  claim_c10 fuzzyFind engAB "foo" ["docA", "docC"] (by decide)

/-! Helper lemmas about newline runs and the renderer's post-processing. -/

theorem hasRun3_cons_of_ne (x : Char) (X : List Char) (hx : (x == '\n') = false) :
    hasRun3 (x :: X) = hasRun3 X := by
  match X with
  | [] => simp [hasRun3]
  | [b] => simp [hasRun3]
  | b :: c :: Y => simp [hasRun3, hx]

theorem hasRun3_nl_cons (X : List Char) (hX : X.head? ≠ some '\n') :
    hasRun3 ('\n' :: X) = hasRun3 X := by
  match X with
  | [] => simp [hasRun3]
  | d :: R =>
    have hd : ¬ d = '\n' := by simpa using hX
    match R with
    | [] => simp [hasRun3]
    | x :: xs => simp [hasRun3, hd]

theorem hasRun3_nl_nl_cons (X : List Char) (hX : X.head? ≠ some '\n') :
    hasRun3 ('\n' :: '\n' :: X) = hasRun3 X := by
  match X with
  | [] => simp [hasRun3]
  | d :: R =>
    have hd : ¬ d = '\n' := by simpa using hX
    have h1 : hasRun3 ('\n' :: d :: R) = hasRun3 (d :: R) := hasRun3_nl_cons (d :: R) hX
    simp [hasRun3, hd, h1]

theorem hasRun4_tail (x : Char) (X : List Char) (h : hasRun4 (x :: X) = false) :
    hasRun4 X = false := by
  match X with
  | [] => rfl
  | [a] => rfl
  | [a, b] => rfl
  | [a, b, c] => rfl
  | a :: b :: c :: d :: u =>
    rw [hasRun4] at h
    simpa using (Bool.or_eq_false_iff.mp h).2

theorem hasRun4_append_left : ∀ (X t : List Char), hasRun4 (X ++ t) = false →
    hasRun4 X = false
  | [], _, _ => rfl
  | [a], _, _ => rfl
  | [a, b], _, _ => rfl
  | [a, b, c], _, _ => rfl
  | a :: b :: c :: d :: u, t, h => by
    rw [show (a :: b :: c :: d :: u) ++ t = a :: b :: c :: d :: (u ++ t) from rfl,
      hasRun4] at h
    obtain ⟨h1, h2⟩ := Bool.or_eq_false_iff.mp h
    rw [hasRun4, Bool.or_eq_false_iff]
    exact ⟨h1, hasRun4_append_left (b :: c :: d :: u) t h2⟩

theorem hasRun4_append_right (s M : List Char) (h : hasRun4 (s ++ M) = false) :
    hasRun4 M = false := by
  induction s with
  | nil => exact h
  | cons a t ih => exact ih (hasRun4_tail a (t ++ M) h)

theorem hasRun4_within (X Y : List Char) (hXY : X <:+: Y) (h : hasRun4 Y = false) :
    hasRun4 X = false := by
  obtain ⟨s, t, rfl⟩ := hXY
  rw [List.append_assoc] at h
  exact hasRun4_append_left X t (hasRun4_append_right s (X ++ t) h)

theorem goReplaceAll3_cons_ne (a : Char) (l : List Char) (ha : ¬ a = '\n') :
    goReplaceAll3 '\n' '\n' '\n' ['\n', '\n'] (a :: l) =
      a :: goReplaceAll3 '\n' '\n' '\n' ['\n', '\n'] l := by
  match l with
  | [] => simp [goReplaceAll3]
  | [b] => simp [goReplaceAll3]
  | b :: c :: t => simp [goReplaceAll3, ha]

theorem goReplaceAll3_cons2_ne (b : Char) (l : List Char) (hb : ¬ b = '\n') :
    goReplaceAll3 '\n' '\n' '\n' ['\n', '\n'] ('\n' :: b :: l) =
      '\n' :: goReplaceAll3 '\n' '\n' '\n' ['\n', '\n'] (b :: l) := by
  match l with
  | [] => simp [goReplaceAll3]
  | c :: t => simp [goReplaceAll3, hb]

theorem goReplaceAll3_triple (t : List Char) :
    goReplaceAll3 '\n' '\n' '\n' ['\n', '\n'] ('\n' :: '\n' :: '\n' :: t) =
      '\n' :: '\n' :: goReplaceAll3 '\n' '\n' '\n' ['\n', '\n'] t := by
  simp [goReplaceAll3]

theorem goReplaceAll3_no3 : ∀ (l : List Char), hasRun4 l = false →
    hasRun3 (goReplaceAll3 '\n' '\n' '\n' ['\n', '\n'] l) = false
  | [], _ => rfl
  | [_], _ => rfl
  | [_, _], _ => rfl
  | a :: b :: c :: t, h4 => by
    by_cases ha : a = '\n'
    · subst ha
      by_cases hb : b = '\n'
      · subst hb
        by_cases hc : c = '\n'
        · subst hc
          rw [goReplaceAll3_triple]
          cases t with
          | nil => rfl
          | cons d t' =>
            have hd : ¬ d = '\n' := by
              intro hd
              subst hd
              simp [hasRun4] at h4
            have h4t : hasRun4 (d :: t') = false :=
              hasRun4_tail _ _ (hasRun4_tail _ _ (hasRun4_tail _ _ h4))
            have ih := goReplaceAll3_no3 (d :: t') h4t
            rw [goReplaceAll3_cons_ne d t' hd] at ih ⊢
            rw [hasRun3_nl_nl_cons _ (by simp [hd])]
            exact ih
        · have e1 : goReplaceAll3 '\n' '\n' '\n' ['\n', '\n'] ('\n' :: '\n' :: c :: t) =
              '\n' :: goReplaceAll3 '\n' '\n' '\n' ['\n', '\n'] ('\n' :: c :: t) := by
            simp [goReplaceAll3, hc]
          have h4t : hasRun4 (c :: t) = false :=
            hasRun4_tail _ _ (hasRun4_tail _ _ h4)
          have ih := goReplaceAll3_no3 (c :: t) h4t
          rw [e1, goReplaceAll3_cons2_ne c t hc, goReplaceAll3_cons_ne c t hc] at *
          rw [hasRun3_nl_nl_cons _ (by simp [hc])]
          exact ih
      · have e1 : goReplaceAll3 '\n' '\n' '\n' ['\n', '\n'] ('\n' :: b :: c :: t) =
            '\n' :: goReplaceAll3 '\n' '\n' '\n' ['\n', '\n'] (b :: c :: t) := by
          simp [goReplaceAll3, hb]
        have h4t : hasRun4 (b :: c :: t) = false := hasRun4_tail _ _ h4
        have ih := goReplaceAll3_no3 (b :: c :: t) h4t
        rw [e1, goReplaceAll3_cons_ne b (c :: t) hb] at *
        rw [hasRun3_nl_cons _ (by simp [hb])]
        exact ih
    · have h4t : hasRun4 (b :: c :: t) = false := hasRun4_tail _ _ h4
      have ih := goReplaceAll3_no3 (b :: c :: t) h4t
      rw [goReplaceAll3_cons_ne a (b :: c :: t) ha,
        hasRun3_cons_of_ne a _ (by simp [ha])]
      exact ih

theorem head?_dropWhile_all (p : Char → Bool) (l : List Char) :
    ((l.dropWhile p).head?.all fun c => !p c) = true := by
  induction l with
  | nil => rfl
  | cons a t ih =>
    rw [List.dropWhile_cons]
    split
    · exact ih
    · rename_i h
      simpa using h

theorem getLast?_of_suffix {X Y : List Char} (h : X <:+ Y) (hne : X ≠ []) :
    Y.getLast? = X.getLast? := by
  obtain ⟨t, rfl⟩ := h
  rw [List.getLast?_append]
  cases hX : X.getLast? with
  | none => exact absurd (List.getLast?_eq_none_iff.mp hX) hne
  | some z => simp

theorem goTrimSpace_noEdge (l : List Char) : noEdgeSpace (goTrimSpace l) = true := by
  unfold goTrimSpace noEdgeSpace
  rw [List.head?_reverse, List.getLast?_reverse]
  have hHead := head?_dropWhile_all goIsSpace (l.dropWhile goIsSpace).reverse
  have hH2 := head?_dropWhile_all goIsSpace l
  by_cases hXe : (l.dropWhile goIsSpace).reverse.dropWhile goIsSpace = []
  · rw [hXe]
    rfl
  · have hlast : ((l.dropWhile goIsSpace).reverse.dropWhile goIsSpace).getLast? =
        (l.dropWhile goIsSpace).reverse.getLast? :=
      (getLast?_of_suffix (List.dropWhile_suffix _) hXe).symm
    rw [hlast, List.getLast?_reverse]
    cases hx1 : (l.dropWhile goIsSpace).head? <;>
      cases hx2 : ((l.dropWhile goIsSpace).reverse.dropWhile goIsSpace).head? <;>
      rw [hx1] at hH2 <;> rw [hx2] at hHead <;> simp_all

theorem goReplaceAll3_getLast : ∀ (l : List Char) (z : Char), ¬ z = '\n' →
    l.getLast? = some z →
    (goReplaceAll3 '\n' '\n' '\n' ['\n', '\n'] l).getLast? = some z
  | [], _, _, h => by simp at h
  | [_], _, _, h => h
  | [_, _], _, _, h => h
  | a :: b :: c :: t, z, hz, h => by
    by_cases ha : a = '\n'
    · subst ha
      by_cases hb : b = '\n'
      · subst hb
        by_cases hc : c = '\n'
        · subst hc
          rw [goReplaceAll3_triple]
          cases t with
          | nil =>
            rw [show (['\n', '\n', '\n'] : List Char).getLast? = some '\n' from rfl] at h
            exact absurd (Option.some.inj h) fun he => hz he.symm
          | cons d t' =>
            rw [List.getLast?_cons_cons, List.getLast?_cons_cons,
              List.getLast?_cons_cons] at h
            have ih := goReplaceAll3_getLast (d :: t') z hz h
            cases hXc : goReplaceAll3 '\n' '\n' '\n' ['\n', '\n'] (d :: t') with
            | nil =>
              rw [hXc] at ih
              simp at ih
            | cons y ys =>
              rw [hXc] at ih
              rw [List.getLast?_cons_cons, List.getLast?_cons_cons]
              exact ih
        · have e1 : goReplaceAll3 '\n' '\n' '\n' ['\n', '\n'] ('\n' :: '\n' :: c :: t) =
              '\n' :: goReplaceAll3 '\n' '\n' '\n' ['\n', '\n'] ('\n' :: c :: t) := by
            simp [goReplaceAll3, hc]
          rw [List.getLast?_cons_cons] at h
          have ih := goReplaceAll3_getLast ('\n' :: c :: t) z hz h
          cases hXc : goReplaceAll3 '\n' '\n' '\n' ['\n', '\n'] ('\n' :: c :: t) with
          | nil =>
            rw [hXc] at ih
            simp at ih
          | cons y ys =>
            rw [hXc] at ih
            rw [e1, hXc, List.getLast?_cons_cons]
            exact ih
      · have e1 : goReplaceAll3 '\n' '\n' '\n' ['\n', '\n'] ('\n' :: b :: c :: t) =
            '\n' :: goReplaceAll3 '\n' '\n' '\n' ['\n', '\n'] (b :: c :: t) := by
          simp [goReplaceAll3, hb]
        rw [List.getLast?_cons_cons] at h
        have ih := goReplaceAll3_getLast (b :: c :: t) z hz h
        cases hXc : goReplaceAll3 '\n' '\n' '\n' ['\n', '\n'] (b :: c :: t) with
        | nil =>
          rw [hXc] at ih
          simp at ih
        | cons y ys =>
          rw [hXc] at ih
          rw [e1, hXc, List.getLast?_cons_cons]
          exact ih
    · rw [List.getLast?_cons_cons] at h
      have ih := goReplaceAll3_getLast (b :: c :: t) z hz h
      cases hXc : goReplaceAll3 '\n' '\n' '\n' ['\n', '\n'] (b :: c :: t) with
      | nil =>
        rw [hXc] at ih
        simp at ih
      | cons y ys =>
        rw [hXc] at ih
        rw [goReplaceAll3_cons_ne a (b :: c :: t) ha, hXc, List.getLast?_cons_cons]
        exact ih

theorem renderMarkdownPost_noEdge (md : String) :
    noEdgeSpace (renderMarkdownPost md).data = true := by
  show noEdgeSpace (goReplaceAll3 '\n' '\n' '\n' ['\n', '\n'] (goTrimSpace md.data)) = true
  have htrim := goTrimSpace_noEdge md.data
  cases hLc : goTrimSpace md.data with
  | nil => rfl
  | cons a t =>
    rw [hLc] at htrim
    unfold noEdgeSpace at htrim
    rw [List.head?_cons] at htrim
    obtain ⟨h1, h2⟩ := (Bool.and_eq_true _ _).mp htrim
    have ha : ¬ a = '\n' := by
      intro hEq
      subst hEq
      simp [goIsSpace] at h1
    obtain ⟨z, hzl⟩ : ∃ z, (a :: t).getLast? = some z := by
      cases hgl : (a :: t).getLast? with
      | none => exact absurd (List.getLast?_eq_none_iff.mp hgl) (by simp)
      | some z => exact ⟨z, rfl⟩
    rw [hzl] at h2
    have hznl : ¬ z = '\n' := by
      intro hEq
      subst hEq
      simp [goIsSpace] at h2
    have hrep := goReplaceAll3_getLast (a :: t) z hznl hzl
    rw [goReplaceAll3_cons_ne a t ha] at hrep ⊢
    unfold noEdgeSpace
    rw [List.head?_cons, hrep]
    simp_all

theorem goTrimSpace_within (l : List Char) : goTrimSpace l <:+: l := by
  unfold goTrimSpace
  obtain ⟨t, ht⟩ := List.dropWhile_suffix (l := l) goIsSpace
  obtain ⟨s, hs⟩ := List.dropWhile_suffix (l := (l.dropWhile goIsSpace).reverse) goIsSpace
  refine ⟨t, s.reverse, ?_⟩
  have hd1 : l.dropWhile goIsSpace =
      ((l.dropWhile goIsSpace).reverse.dropWhile goIsSpace).reverse ++ s.reverse := by
    have h2 := congrArg List.reverse hs
    rw [List.reverse_append, List.reverse_reverse] at h2
    exact h2.symm
  have h3 : t ++ ((l.dropWhile goIsSpace).reverse.dropWhile goIsSpace).reverse ++
      s.reverse = l := by
    rw [List.append_assoc, ← hd1, ht]
  exact h3

theorem renderMarkdownPost_no3 (md : String) (h4 : hasRun4 md.data = false) :
    hasRun3 (renderMarkdownPost md).data = false := by
  show hasRun3 (goReplaceAll3 '\n' '\n' '\n' ['\n', '\n'] (goTrimSpace md.data)) = false
  exact goReplaceAll3_no3 _ (hasRun4_within _ _ (goTrimSpace_within md.data) h4)

/-! The renderer claims. -/

/-- **C7.**  The claim states that markdown-mode rendering of input
containing a `<script>`/`<style>` element never contains the element's body
text.  In the tree-walk revision the cleaning step fails to deliver this:
`cleanHTML` serializes every kept node with `html.Render`, which emits the
node's *entire subtree* — so the style body survives into the cleaned bytes
through the kept `html` ancestor — and the markdown tree walk
`extractMarkdown` does not filter `style`/`script` elements either, so the
body text reaches the final output. -/
theorem claim_c7_code_bug :
    goContains (cleanHTML styleDoc) "color: red" = true ∧
    goContains (extractMarkdown styleDoc) "color: red" = true :=
  ⟨by decide, by decide⟩

/-- **C8** (amended).  Every successful output of the readability-based
markdown renderer is the post-processing (`TrimSpace` then one
`ReplaceAll "\n\n\n" "\n\n"` pass) of the converted markdown; that output has
no leading or trailing whitespace, and — provided the converted markdown
contains no run of four or more consecutive newlines — no run of three or
more.  (A four-newline run survives the single non-overlapping replacement
pass as a three-newline run, and the tree-walk revision of the markdown
renderer applies no trimming or collapsing at all — see the
counterexample.) -/
theorem claim_c8_amended (extract : String → Except String String)
    (parse : String → Html) (input : String) (out : String)
    (h : renderMarkdown extract parse input = Except.ok out) :
    ∃ md, out = renderMarkdownPost md ∧
      noEdgeSpace out.data = true ∧
      (hasRun4 md.data = false → hasRun3 out.data = false) := by
  unfold renderMarkdown convertString at h
  have h' := Except.ok.inj h
  refine ⟨_, h'.symm, ?_, ?_⟩
  · rw [← h']
    exact renderMarkdownPost_noEdge _
  · intro h4
    rw [← h']
    exact renderMarkdownPost_no3 _ h4

/-- **C8** witness: the amended theorem applied with a failing extraction
step (exercising the raw-input fallback) on the parse tree of
`<p>hi</p>`. -/
theorem claim_c8_witness :
    ∃ md, ("hi" : String) = renderMarkdownPost md ∧
      noEdgeSpace ("hi" : String).data = true ∧
      (hasRun4 md.data = false → hasRun3 ("hi" : String).data = false) :=
  claim_c8_amended (fun _ => .error "boom") (fun _ => pDoc) "<p>hi</p>" "hi" (by rfl)

/-- **C8** counterexample: the tree-walk markdown renderer cited by the claim
(render.go, `extractMarkdown`) emits `"\n\nhi"` for the parse tree of
`<p>hi</p>` — output with leading whitespace, which trimming would change. -/
theorem claim_c8_counterexample :
    extractMarkdown pDoc = "\n\nhi" ∧
    noEdgeSpace (extractMarkdown pDoc).data = false :=
  ⟨by decide, by decide⟩

/-- **C9.**  `Render` never returns an error in either mode, for every input,
every behavior of the main-content extraction step (including one that always
fails — its failure is absorbed by the fall-back to the raw input), and every
parse result; the HTML parser and the markdown converter are total
(spec §4.2/§7, golang.org/x/net/html). -/
theorem claim_c9 (format : String) (extract : String → Except String String)
    (parse : String → Html) (input : String) :
    ∃ out, Render format extract parse input = Except.ok out := by
  unfold Render
  by_cases hf : format = FormatMD
  · rw [if_pos hf]
    unfold renderMarkdown convertString
    cases hx : extract input with
    | ok c => exact ⟨_, rfl⟩
    | error e => exact ⟨_, rfl⟩
  · rw [if_neg hf]
    unfold renderText
    cases hx : extract input with
    | ok c => exact ⟨_, rfl⟩
    | error e => exact ⟨_, rfl⟩

end DSearch
